import Mathlib

/-!
Verification development for the vim-clap maple backend (Rust sources
`crates/maple_cli/src/cmd/filter/dynamic.rs` and
`crates/maple_cli/src/light_command.rs`).

The Rust code is shallowly embedded: the fixed-size arrays
`[i64; ITEMS_TO_SHOW]` and `[usize; ITEMS_TO_SHOW]` become Lean lists of
length 30, `i64` becomes `Int` (with the bound `i64Min ≤ score` made
explicit where it matters), `Vec<FuzzyMatchedLineInfo>` becomes
`List Item`, and the wall clock (`Instant`) becomes an explicit sequence
of natural-number millisecond readings threaded through the loop.
-/

set_option maxRecDepth 20000

namespace VimClap

/-- `const ITEMS_TO_SHOW: usize = 30` from dynamic.rs. -/
def ITEMS_TO_SHOW : Nat := 30

/-- `const MAX_IDX: usize = ITEMS_TO_SHOW - 1` from dynamic.rs. -/
def MAX_IDX : Nat := ITEMS_TO_SHOW - 1

/-- `const UPDATE_INTERVAL: Duration = Duration::from_millis(300)`, in ms. -/
def UPDATE_INTERVAL : Nat := 300

/-- The `i64::min_value()` sentinel used for empty `top_scores` slots. -/
def i64Min : Int := -(2 ^ 63)

/-- `FuzzyMatchedLineInfo = (String, i64, Vec<usize>)`: text, score, positions. -/
abbrev Item := String × Int × List Nat

/-- Projection of the score component of a `FuzzyMatchedLineInfo`. -/
def itemScore (it : Item) : Int := it.2.1

/-- Default element used with `List.getD` on buffers (never read in bounds). -/
def dfltItem : Item := ("", 0, [])

/-- `Insert::pop_and_insert` on `[T; ITEMS_TO_SHOW]`: if `idx < MAX_IDX`,
`copy_within(idx..MAX_IDX, idx + 1)` then `self[idx] = value`, which is
inserting `value` at `idx` and dropping the old last element; otherwise
overwrite the last slot with `value`. -/
def popAndInsert (l : List α) (idx : Nat) (v : α) : List α :=
  if idx < l.length - 1 then (l.insertIdx idx v).dropLast
  else l.dropLast ++ [v]

/-- Helper for `find_best_score_idx`: scan indices `k-1, k-2, …, 0` (the
reverse traversal produced by `.iter().enumerate().rev()`) and return the
first index whose score is strictly greater than `score`. -/
def findBestFrom (top_scores : List Int) (score : Int) : Nat → Option Nat
  | 0 => none
  | k + 1 =>
    if score < top_scores.getD k 0 then some k
    else findBestFrom top_scores score k

/-- `find_best_score_idx` from dynamic.rs: scan `top_scores` from the worst
(last) slot backward and return the index of the first slot whose score is
strictly greater than `score`; `none` when no slot is strictly greater. -/
def find_best_score_idx (top_scores : List Int) (score : Int) : Option Nat :=
  findBestFrom top_scores score top_scores.length

/-- The insertion slot used by the fill-mode loop of
`select_top_items_to_show`: `find_best_score_idx + 1`, or slot 0 when the
new score beats everything. -/
def insertionIdx (top_scores : List Int) (score : Int) : Nat :=
  match find_best_score_idx top_scores score with
  | some j => j + 1
  | none => 0

/-- The selector state of `dyn_collect_all` / `dyn_collect_number`: the two
parallel `top_` arrays plus the collection buffer. -/
structure SelState where
  top_scores : List Int
  top_results : List Nat
  buffer : List Item
  deriving Repr, DecidableEq

/-- Initial selector state: `[i64::min_value(); 30]`, `[usize::min_value(); 30]`
(`usize::min_value() = 0`) and an empty buffer. -/
def initSel : SelState :=
  { top_scores := List.replicate ITEMS_TO_SHOW i64Min
    top_results := List.replicate ITEMS_TO_SHOW 0
    buffer := [] }

/-- The non-`pop` arm of the `insert_both!` macro: push the item into the
buffer, then `pop_and_insert` its buffer index (`buffer.len() - 1` after the
push) and its score at `idx` into the two `top_` arrays. -/
def insert_both (st : SelState) (idx : Nat) (it : Item) : SelState :=
  { buffer := st.buffer ++ [it]
    top_results := popAndInsert st.top_results idx st.buffer.length
    top_scores := popAndInsert st.top_scores idx (itemScore it) }

/-- One iteration of `select_top_items_to_show` (fill mode): the insertion
index is `find_best_score_idx + 1`, or `0` when none is found, and
`insert_both!` is applied unconditionally. -/
def fillStep (st : SelState) (it : Item) : SelState :=
  insert_both st (insertionIdx st.top_scores (itemScore it)) it

/-- One iteration of the steady-state loop (the `insert_both!(pop; …)` arm):
`Some(MAX_IDX)` only pushes into the buffer, `Some(idx)` inserts at
`idx + 1`, `None` inserts at `0`. -/
def steadyStep (st : SelState) (it : Item) : SelState :=
  match find_best_score_idx st.top_scores (itemScore it) with
  | some j =>
    if j = MAX_IDX then { st with buffer := st.buffer ++ [it] }
    else insert_both st (j + 1) it
  | none => insert_both st 0 it

/-- `dyn_collect_all` restricted to its selector/buffer dynamics: the first
`ITEMS_TO_SHOW` items go through fill mode (`select_top_items_to_show`
stops after exactly 30 items), the rest through steady-state mode. -/
def dyn_collect_all (items : List Item) : SelState :=
  (items.drop ITEMS_TO_SHOW).foldl steadyStep
    ((items.take ITEMS_TO_SHOW).foldl fillStep initSel)

/-- Descending-by-score order on items, the comparator of the final and
compaction sorts
(`|(_, v1, _), (_, v2, _)| v2.partial_cmp(&v1)` on `i64` scores). -/
def scoreGE (a b : Item) : Prop := itemScore b ≤ itemScore a

instance : DecidableRel scoreGE := fun a b =>
  inferInstanceAs (Decidable (itemScore b ≤ itemScore a))

instance : IsTotal Item scoreGE :=
  ⟨fun a b => le_total (itemScore b) (itemScore a)⟩

instance : IsTrans Item scoreGE :=
  ⟨fun _ _ _ h1 h2 => le_trans h2 h1⟩

/-- The descending-by-score sort
`buffer.par_sort_unstable_by(|(_, v1, _), (_, v2, _)| v2.partial_cmp(&v1))`.
The source sort is unstable, so the order of equal-score items is
unspecified there; the model fixes one correct descending sort. -/
def sortDescByScore (l : List Item) : List Item :=
  l.insertionSort scoreGE

/-- The compaction body of `dyn_collect_number`, run when the buffer reaches
its capacity: sort the buffer descending by score, resynchronize
`top_scores[idx] = buffer[idx].score` and `top_results[idx] = idx` for
`idx < ITEMS_TO_SHOW`, then truncate the buffer to its first half. -/
def compactResync (st : SelState) : SelState :=
  let sorted := sortDescByScore st.buffer
  { buffer := sorted.take (sorted.length / 2)
    top_scores := (List.range ITEMS_TO_SHOW).map fun i => itemScore (sorted.getD i dfltItem)
    top_results := List.range ITEMS_TO_SHOW }

/-- One iteration of `dyn_collect_number`'s steady-state loop: a steady-state
insertion followed by the `buffer.len() == buffer.capacity()` compaction
check (`Vec::with_capacity(cap)` is taken to allocate exactly `cap`). -/
def collectNumberStep (cap : Nat) (st : SelState) (it : Item) : SelState :=
  let st' := steadyStep st it
  if st'.buffer.length = cap then compactResync st' else st'

/-- The buffer capacity of `dyn_collect_number`:
`2 * std::cmp::max(ITEMS_TO_SHOW, number)`. -/
def collectCapacity (number : Nat) : Nat := 2 * max ITEMS_TO_SHOW number

/-- `dyn_collect_number` restricted to its selector/buffer dynamics: fill
mode for the first 30 items, then steady-state insertion with periodic
compaction. The returned buffer is neither sorted nor truncated. -/
def dyn_collect_number (number : Nat) (items : List Item) : SelState :=
  (items.drop ITEMS_TO_SHOW).foldl (collectNumberStep (collectCapacity number))
    ((items.take ITEMS_TO_SHOW).foldl fillStep initSel)

/-- The final answer of `dyn_fuzzy_filter_and_rank` in the `Some(number)`
branch: the caller feeds `filtered.into_iter().take(number)` — the first
`number` entries of the buffer returned by `dyn_collect_number` — to
`process_top_items` without any sort. -/
def dynFuzzyTopResults (number : Nat) (items : List Item) : List Item :=
  (dyn_collect_number number items).buffer.take number

/-- The true top `number` of an input: sort everything once, descending by
score, and take the first `number` entries. -/
def trueTopResults (number : Nat) (items : List Item) : List Item :=
  (sortDescByScore items).take number

/-! ### Progress emitter (`try_notify_top_results`) -/

/-- The gate of `try_notify_top_results`: given the running `total`, the
stored `past` instant and the current clock reading `now` (milliseconds),
return `some now` exactly when `total % 16 == 0` and
`now > past + UPDATE_INTERVAL`; otherwise `none` (no emission). -/
def tryNotifyModel (total past now : Nat) : Option Nat :=
  if total % 16 = 0 then
    if past + UPDATE_INTERVAL < now then some now else none
  else none

/-- State threaded through the steady-state loop for emission: the running
total, the `past` instant, and the times of the emissions so far. -/
structure NotifyState where
  total : Nat
  past : Nat
  emits : List Nat
  deriving Repr, DecidableEq

/-- One loop iteration as far as emission is concerned: `total += 1`, then
`if let Ok(now) = try_notify_top_results(…) { past = now }`; an emission
records the clock reading. -/
def notifyStep (st : NotifyState) (now : Nat) : NotifyState :=
  let total := st.total + 1
  match tryNotifyModel total st.past now with
  | some t => { total := total, past := t, emits := st.emits ++ [t] }
  | none => { total := total, past := st.past, emits := st.emits }

/-- Run the emission loop over a stream of clock readings (one reading per
processed candidate), starting from `total0` and `past0`. -/
def runNotify (total0 past0 : Nat) (clocks : List Nat) : NotifyState :=
  clocks.foldl notifyStep { total := total0, past := past0, emits := [] }

/-! ### light_command.rs -/

/-- Rust `str::split(c)` on the character list of a string: splitting the
empty string yields one empty piece, and every occurrence of `c` starts a
new piece. -/
def splitOnChar (c : Char) : List Char → List (List Char)
  | [] => [[]]
  | x :: xs =>
    match splitOnChar c xs with
    | [] => [[x]]
    | h :: t => if x = c then [] :: h :: t else (x :: h) :: t

/-- Rust `str::split(c)` as a function on `String`. -/
def splitChar (c : Char) (s : String) : List String :=
  (splitOnChar c s.toList).map fun cs => ⟨cs⟩

/-- `trim_trailing` from light_command.rs: remove the last line when it is
the empty string or its byte length is 4 (the byte length of the
icon-prefixed blank line produced by `prepend_icon("")`). -/
def trim_trailing (lines : List String) : List String :=
  match lines.getLast? with
  | some last_line =>
    if last_line = "" ∨ last_line.utf8ByteSize = 4 then lines.dropLast else lines
  | none => lines

/-- The captured `std::process::Output`: exit code (0 means
`status.success()`), decoded stdout and decoded stderr. `bytecount::count
(stdout, b'\n')` equals the number of `'\n'` characters of the decoded
text, since UTF-8 continuation bytes are never `0x0A`. -/
structure CmdOutput where
  exitCode : Nat
  stdout : String
  stderr : String
  deriving Repr, DecidableEq

/-- The configuration fields of `LightCommand` that its execution path
reads. -/
structure LightCmd where
  number : Option Nat
  output : Option String
  enable_icon : Bool
  grep_enable_icon : Bool
  output_threshold : Nat
  deriving Repr, DecidableEq

/-- The observable outcome of a `LightCommand` invocation: the fail-fast
`std::process::exit(1)` after printing the stderr text as `error`; a normal
`println_json!` response (with an optional `tempfile` field); a cache hit
response; or the `parse::<u64>().unwrap()` panic in the cache lookup. -/
inductive ExecResult where
  | fatal (exitCode : Nat) (error : String)
  | response (total : Nat) (lines : List String) (tempfile : Option String)
  | cacheHit (total : Nat) (tempfile : String)
  | panicAbort
  deriving Repr, DecidableEq

/-- Number of `'\n'` characters, i.e. `bytecount::count(stdout, b'\n')`. -/
def countNewlines (s : String) : Nat :=
  s.toList.count '\n'

/-- `LightCommand::try_prepend_icon`, with the external `icon` crate's
decoration passed in as `iconFn` (the spec treats line decoration as an
external collaborator): decorate each line according to the flags, then
`trim_trailing`. -/
def tryPrependIcon (cfg : LightCmd) (iconFn grepIconFn : String → String)
    (top_n : List String) : List String :=
  let lines :=
    if cfg.grep_enable_icon then top_n.map grepIconFn
    else if cfg.enable_icon then top_n.map iconFn
    else top_n
  trim_trailing lines

/-- `LightCommand::tempfile`: the explicit `--output` override, or a fresh
path in the cache directory named `{timestamp}_{total}`. -/
def tempfilePath (cfg : LightCmd) (args : List String) (ts total : Nat) : String :=
  match cfg.output with
  | some o => o
  | none =>
    "clap_cache/" ++ String.intercalate "_" args ++ "/" ++
      toString ts ++ "_" ++ toString total

/-- `LightCommand::execute` composed with `LightCommand::output`, as a pure
function of the captured command output. The fail-fast check comes first;
then `total = bytecount(stdout, '\n')`; then `minimalize_job_overhead`
short-circuits when a `number` is requested; otherwise `try_cache` spills
to a tempfile exactly when `total > output_threshold`. -/
def executeModel (cfg : LightCmd) (iconFn grepIconFn : String → String)
    (o : CmdOutput) (args : List String) (ts : Nat) : ExecResult :=
  if o.exitCode ≠ 0 ∧ o.stderr ≠ "" then .fatal 1 o.stderr
  else
    let total := countNewlines o.stdout
    match cfg.number with
    | some n =>
      .response total (tryPrependIcon cfg iconFn grepIconFn ((splitChar '\n' o.stdout).take n)) none
    | none =>
      let spilled :=
        if total > cfg.output_threshold then some (tempfilePath cfg args ts total) else none
      .response total (tryPrependIcon cfg iconFn grepIconFn (splitChar '\n' o.stdout)) spilled

/-- Model of Rust `str::parse::<u64>`: an optional leading `+`, then a
non-empty run of ASCII digits whose value fits in 64 bits. -/
def parseU64 (s : String) : Option Nat :=
  let t := match s.toList with
    | '+' :: rest => rest
    | l => l
  if t ≠ [] ∧ t.all Char.isDigit then
    let v := t.foldl (fun acc c => acc * 10 + (c.toNat - 48)) 0
    if v < 2 ^ 64 then some v else none
  else none

/-- The decision `try_cache_or_execute` takes on the first cache-directory
entry's filename: split on `'_'`; with exactly two parts, `unwrap` the
`u64` parse of the second part (a panic when it fails) and report a hit;
any other number of parts falls through to execution. -/
inductive CacheLookup where
  | hit (total : Nat)
  | miss
  | aborted
  deriving Repr, DecidableEq

/-- The filename inspection inside `try_cache_or_execute`. -/
def cacheEntryLookup (filename : String) : CacheLookup :=
  let info := splitChar '_' filename
  if info.length = 2 then
    match parseU64 (info.getD 1 "") with
    | some total => .hit total
    | none => .aborted
  else .miss

/-- `LightCommand::try_cache_or_execute`: `cacheEntry` is the filename of
the first entry of the cache directory when one exists. A well-shaped
entry answers from the cache; a malformed-arity entry falls through to
`execute`; a two-part entry whose count fails to parse panics. -/
def tryCacheOrExecuteModel (cfg : LightCmd) (iconFn grepIconFn : String → String)
    (cacheEntry : Option String) (o : CmdOutput) (args : List String) (ts : Nat) : ExecResult :=
  match cacheEntry with
  | some filename =>
    match cacheEntryLookup filename with
    | .hit total => .cacheHit total ("cachedir/" ++ filename)
    | .aborted => .panicAbort
    | .miss => executeModel cfg iconFn grepIconFn o args ts
  | none => executeModel cfg iconFn grepIconFn o args ts

/-! ### Invariants used by the claims -/

/-- `top_scores` is sorted descending (position 0 is the best). -/
def sortedDesc (l : List Int) : Prop :=
  ∀ j, j < l.length → ∀ i, i ≤ j → l.getD j 0 ≤ l.getD i 0

instance (l : List Int) : Decidable (sortedDesc l) :=
  inferInstanceAs
    (Decidable (∀ j, j < l.length → ∀ i, i ≤ j → l.getD j 0 ≤ l.getD i 0))


/-- The selector invariant of the spec: both `top_` arrays have length
`ITEMS_TO_SHOW`; `top_scores` is sorted descending; every slot at or past
the filled count `min buffer.length 30` holds the `i64::MIN` sentinel; and
every filled slot's `top_results` entry is a valid buffer index whose
item's score equals the slot's `top_scores` entry. -/
def SelInv (st : SelState) : Prop :=
  st.top_scores.length = ITEMS_TO_SHOW ∧
  st.top_results.length = ITEMS_TO_SHOW ∧
  sortedDesc st.top_scores ∧
  (∀ i, min st.buffer.length ITEMS_TO_SHOW ≤ i → i < ITEMS_TO_SHOW →
    st.top_scores.getD i 0 = i64Min) ∧
  (∀ i, i < min st.buffer.length ITEMS_TO_SHOW →
    st.top_results.getD i 0 < st.buffer.length ∧
      itemScore (st.buffer.getD (st.top_results.getD i 0) dfltItem) =
        st.top_scores.getD i 0)

/-! ### Concrete inputs used by counterexamples and witnesses -/

/-- Two scored candidates in ascending score order: the second arrival has
the strictly better score. -/
def bugItems : List Item := [("a", 1, []), ("b", 2, [])]

/-- Two scored candidates with equal scores, in arrival order. -/
def tieItems : List Item := [("a", 3, []), ("b", 3, [])]

/-- A `LightCommand` configuration with no `number` limit, no `--output`
override, icons disabled and an output threshold of 5 lines. -/
def cfgDemo : LightCmd :=
  { number := none, output := none, enable_icon := false
    grep_enable_icon := false, output_threshold := 5 }

/-- A successful command output with two lines of stdout. -/
def outDemo : CmdOutput := { exitCode := 0, stdout := "x\ny", stderr := "" }

/-- A selector state whose buffer is one push away from the
`collectCapacity 0 = 60` capacity. -/
def nearCapSt : SelState :=
  { top_scores := List.replicate ITEMS_TO_SHOW 0
    top_results := List.replicate ITEMS_TO_SHOW 0
    buffer := List.replicate 59 dfltItem }

/-! ## Lemmas

### `find_best_score_idx`: reverse-scan characterization -/

theorem findBestFrom_eq_none {l : List Int} {s : Int} {k : Nat} :
    findBestFrom l s k = none ↔ ∀ m, m < k → l.getD m 0 ≤ s := by
  induction k with
  | zero => simp [findBestFrom]
  | succ k ih =>
    by_cases h : s < l.getD k 0
    · simp only [findBestFrom, if_pos h]
      constructor
      · intro hc; cases hc
      · intro H; exact absurd (H k (Nat.lt_succ_self k)) (not_le.mpr h)
    · simp only [findBestFrom, if_neg h, ih]
      constructor
      · intro H m hm
        rcases Nat.lt_succ_iff_lt_or_eq.mp hm with hm' | rfl
        · exact H m hm'
        · exact not_lt.mp h
      · intro H m hm; exact H m (Nat.lt_succ_of_lt hm)

theorem findBestFrom_eq_some {l : List Int} {s : Int} {k j : Nat} :
    findBestFrom l s k = some j ↔
      j < k ∧ s < l.getD j 0 ∧ ∀ m, j < m → m < k → l.getD m 0 ≤ s := by
  induction k with
  | zero => simp [findBestFrom]
  | succ k ih =>
    by_cases h : s < l.getD k 0
    · simp only [findBestFrom, if_pos h, Option.some.injEq]
      constructor
      · rintro rfl
        exact ⟨by omega, h, fun m hm hm' => by omega⟩
      · rintro ⟨hjk, hj, hgt⟩
        by_contra hne
        have hjk' : j < k := by omega
        exact absurd (hgt k hjk' (Nat.lt_succ_self k)) (not_le.mpr h)
    · simp only [findBestFrom, if_neg h, ih]
      constructor
      · rintro ⟨hjk, hj, hgt⟩
        refine ⟨Nat.lt_succ_of_lt hjk, hj, fun m hm hm' => ?_⟩
        rcases Nat.lt_succ_iff_lt_or_eq.mp hm' with hm'' | rfl
        · exact hgt m hm hm''
        · exact not_lt.mp h
      · rintro ⟨hjk, hj, hgt⟩
        have hjk' : j < k := by
          rcases Nat.lt_succ_iff_lt_or_eq.mp hjk with h' | rfl
          · exact h'
          · exact absurd hj h
        exact ⟨hjk', hj, fun m hm hm' => hgt m hm (Nat.lt_succ_of_lt hm')⟩

theorem find_best_score_idx_eq_none {l : List Int} {s : Int} :
    find_best_score_idx l s = none ↔ ∀ m, m < l.length → l.getD m 0 ≤ s :=
  findBestFrom_eq_none

theorem find_best_score_idx_eq_some {l : List Int} {s : Int} {j : Nat} :
    find_best_score_idx l s = some j ↔
      j < l.length ∧ s < l.getD j 0 ∧
        ∀ m, j < m → m < l.length → l.getD m 0 ≤ s :=
  findBestFrom_eq_some

/-! ### `popAndInsert`: pointwise characterization -/

theorem popAndInsert_length {l : List α} (h : l ≠ []) (idx : Nat) (v : α) :
    (popAndInsert l idx v).length = l.length := by
  have hpos : 0 < l.length := List.length_pos.mpr h
  unfold popAndInsert
  by_cases hidx : idx < l.length - 1
  · rw [if_pos hidx, List.length_dropLast,
      List.length_insertIdx idx l (by omega)]
    omega
  · rw [if_neg hidx]
    simp only [List.length_append, List.length_dropLast, List.length_singleton]
    omega

theorem popAndInsert_getD_lt {l : List α} {idx i : Nat} {v d : α}
    (h1 : i < idx) (h2 : i < l.length - 1) :
    (popAndInsert l idx v).getD i d = l.getD i d := by
  have hpos : 0 < l.length := by omega
  have hne : l ≠ [] := List.length_pos.mp hpos
  unfold popAndInsert
  by_cases hidx : idx < l.length - 1
  · rw [if_pos hidx]
    have hlen : (l.insertIdx idx v).length = l.length + 1 :=
      List.length_insertIdx idx l (by omega)
    have hdl : i < (l.insertIdx idx v).dropLast.length := by
      rw [List.length_dropLast, hlen]; omega
    rw [List.getD_eq_getElem _ _ hdl, List.getElem_dropLast,
      List.getElem_insertIdx_of_lt l v idx i h1 (by omega),
      List.getD_eq_getElem _ _ (by omega : i < l.length)]
  · rw [if_neg hidx]
    have hdl : i < l.dropLast.length := by rw [List.length_dropLast]; omega
    rw [List.getD_append _ _ _ _ hdl, List.getD_eq_getElem _ _ hdl,
      List.getElem_dropLast, List.getD_eq_getElem _ _ (by omega : i < l.length)]

theorem popAndInsert_getD_at {l : List α} {idx : Nat} {v d : α}
    (h : idx < l.length - 1) :
    (popAndInsert l idx v).getD idx d = v := by
  unfold popAndInsert
  rw [if_pos h]
  have hlen : (l.insertIdx idx v).length = l.length + 1 :=
    List.length_insertIdx idx l (by omega)
  have hdl : idx < (l.insertIdx idx v).dropLast.length := by
    rw [List.length_dropLast, hlen]; omega
  rw [List.getD_eq_getElem _ _ hdl, List.getElem_dropLast,
    List.getElem_insertIdx_self l v idx (by omega)]

theorem popAndInsert_getD_gt {l : List α} {idx i : Nat} {v d : α}
    (h : idx < l.length - 1) (h1 : idx < i) (h2 : i < l.length) :
    (popAndInsert l idx v).getD i d = l.getD (i - 1) d := by
  unfold popAndInsert
  rw [if_pos h]
  have hlen : (l.insertIdx idx v).length = l.length + 1 :=
    List.length_insertIdx idx l (by omega)
  have hdl : i < (l.insertIdx idx v).dropLast.length := by
    rw [List.length_dropLast, hlen]; omega
  rw [List.getD_eq_getElem _ _ hdl, List.getElem_dropLast,
    List.getD_eq_getElem _ _ (by omega : i - 1 < l.length)]
  have := List.getElem_insertIdx_add_succ l v idx (i - idx - 1)
    (by omega) (by omega)
  convert this using 2 <;> omega

theorem popAndInsert_getD_last {l : List α} {idx : Nat} {v d : α}
    (h : ¬ idx < l.length - 1) (h0 : l ≠ []) :
    (popAndInsert l idx v).getD (l.length - 1) d = v := by
  have hpos : 0 < l.length := List.length_pos.mpr h0
  unfold popAndInsert
  rw [if_neg h]
  rw [List.getD_append_right _ _ _ _ (by rw [List.length_dropLast])]
  rw [List.length_dropLast]
  simp

/-! ### Small `getD` helpers -/

theorem getD_replicate {a d : α} {n k : Nat} (h : k < n) :
    (List.replicate n a).getD k d = a := by
  rw [List.getD_eq_getElem _ _ (by simpa using h), List.getElem_replicate]

theorem getD_append_self {l : List α} {x d : α} :
    (l ++ [x]).getD l.length d = x := by
  rw [List.getD_append_right _ _ _ _ le_rfl]
  simp

/-! ### Sortedness is preserved by a correctly placed `popAndInsert` -/

theorem sortedDesc_popAndInsert {l : List Int} {idx : Nat} {v : Int}
    (hs : sortedDesc l)
    (hup : ∀ i, i < idx → i < l.length → v ≤ l.getD i 0)
    (hdown : ∀ i, idx ≤ i → i < l.length → l.getD i 0 ≤ v)
    (h0 : l ≠ []) :
    sortedDesc (popAndInsert l idx v) := by
  intro j hj i hij
  rw [popAndInsert_length h0] at hj
  by_cases hidx : idx < l.length - 1
  · rcases lt_trichotomy j idx with hj' | rfl | hj'
    · rw [popAndInsert_getD_lt hj' (by omega),
        popAndInsert_getD_lt (by omega) (by omega)]
      exact hs j (by omega) i hij
    · rw [popAndInsert_getD_at hidx]
      rcases lt_or_eq_of_le hij with hi' | rfl
      · rw [popAndInsert_getD_lt hi' (by omega)]
        exact hup i hi' (by omega)
      · rw [popAndInsert_getD_at hidx]
    · rw [popAndInsert_getD_gt hidx hj' hj]
      rcases lt_trichotomy i idx with hi' | rfl | hi'
      · rw [popAndInsert_getD_lt hi' (by omega)]
        exact le_trans (hdown (j - 1) (by omega) (by omega)) (hup i hi' (by omega))
      · rw [popAndInsert_getD_at hidx]
        exact hdown (j - 1) (by omega) (by omega)
      · rw [popAndInsert_getD_gt hidx hi' (by omega)]
        exact hs (j - 1) (by omega) (i - 1) (by omega)
  · by_cases hj' : j < l.length - 1
    · rw [popAndInsert_getD_lt (by omega) hj',
        popAndInsert_getD_lt (by omega) (by omega)]
      exact hs j (by omega) i hij
    · have hj'' : j = l.length - 1 := by omega
      subst hj''
      rw [popAndInsert_getD_last hidx h0]
      rcases lt_or_eq_of_le hij with hi' | rfl
      · rw [popAndInsert_getD_lt (by omega) (by omega)]
        exact hup i (by omega) (by omega)
      · rw [popAndInsert_getD_last hidx h0]

/-! ### The selector invariant -/

theorem selInv_init : SelInv initSel := by
  refine ⟨by simp [initSel], by simp [initSel], ?_, ?_, ?_⟩
  · intro j hj i hij
    simp only [initSel, List.length_replicate] at hj ⊢
    rw [getD_replicate hj, getD_replicate (by omega)]
  · intro i _ hi
    simpa [initSel] using getD_replicate (a := i64Min) (d := (0 : Int)) hi
  · intro i hi
    simp [initSel] at hi

theorem selInv_insert_both {st : SelState} {it : Item} {idx : Nat}
    (hinv : SelInv st)
    (hf : idx ≤ min st.buffer.length ITEMS_TO_SHOW)
    (h29 : idx ≤ MAX_IDX)
    (hup : ∀ i, i < idx → i < ITEMS_TO_SHOW →
      itemScore it ≤ st.top_scores.getD i 0)
    (hdown : ∀ i, idx ≤ i → i < ITEMS_TO_SHOW →
      st.top_scores.getD i 0 ≤ itemScore it) :
    SelInv (insert_both st idx it) ∧
      (insert_both st idx it).buffer.length = st.buffer.length + 1 := by
  obtain ⟨hsl, hrl, hsort, hsent, hcorr⟩ := hinv
  simp only [ITEMS_TO_SHOW, MAX_IDX] at hsl hrl hsent hcorr hf h29 hup hdown
  have hsne : st.top_scores ≠ [] := by
    intro h; rw [h] at hsl; simp at hsl
  have hrne : st.top_results ≠ [] := by
    intro h; rw [h] at hrl; simp at hrl
  set n := st.buffer.length with hn
  set s := itemScore it with hs
  refine ⟨⟨?_, ?_, ?_, ?_, ?_⟩, ?_⟩
  · simpa [insert_both, ITEMS_TO_SHOW] using by
      rw [popAndInsert_length hsne]; exact hsl
  · simpa [insert_both, ITEMS_TO_SHOW] using by
      rw [popAndInsert_length hrne]; exact hrl
  · simp only [insert_both]
    exact sortedDesc_popAndInsert hsort
      (fun i h1 h2 => hup i h1 (by omega))
      (fun i h1 h2 => hdown i h1 (by omega)) hsne
  · intro i h1 h2
    simp only [insert_both, List.length_append, List.length_singleton,
      ITEMS_TO_SHOW] at h1 h2 ⊢
    have hn28 : n ≤ 28 := by omega
    have hi1 : n + 1 ≤ i := by omega
    rw [popAndInsert_getD_gt (by omega) (by omega) (by omega)]
    exact hsent (i - 1) (by omega) (by omega)
  · intro i h1
    simp only [insert_both, List.length_append, List.length_singleton,
      ITEMS_TO_SHOW] at h1 ⊢
    rcases lt_trichotomy i idx with hi' | rfl | hi'
    · rw [popAndInsert_getD_lt hi' (by omega),
        popAndInsert_getD_lt hi' (by omega)]
      obtain ⟨hb, hc⟩ := hcorr i (by omega)
      refine ⟨by omega, ?_⟩
      rw [List.getD_append _ _ _ _ (by omega), hc]
    · by_cases hlt : i < 29
      · rw [popAndInsert_getD_at (by omega), popAndInsert_getD_at (by omega)]
        refine ⟨by omega, ?_⟩
        rw [getD_append_self]
      · have hr' : st.top_results.length - 1 = i := by omega
        have hs' : st.top_scores.length - 1 = i := by omega
        have e1 : (popAndInsert st.top_results i n).getD i 0 = n := by
          have := @popAndInsert_getD_last _ st.top_results i n 0
            (by omega) hrne
          rwa [hr'] at this
        have e2 : (popAndInsert st.top_scores i s).getD i 0 = s := by
          have := @popAndInsert_getD_last _ st.top_scores i s 0
            (by omega) hsne
          rwa [hs'] at this
        rw [e1, e2]
        refine ⟨by omega, ?_⟩
        rw [getD_append_self]
    · rw [popAndInsert_getD_gt (by omega) hi' (by omega),
        popAndInsert_getD_gt (by omega) hi' (by omega)]
      obtain ⟨hb, hc⟩ := hcorr (i - 1) (by omega)
      refine ⟨by omega, ?_⟩
      rw [List.getD_append _ _ _ _ (by omega), hc]
  · simp [insert_both]

theorem selInv_fillStep {st : SelState} {it : Item}
    (hinv : SelInv st) (hlt : st.buffer.length < ITEMS_TO_SHOW)
    (hsc : i64Min ≤ itemScore it) :
    SelInv (fillStep st it) ∧
      (fillStep st it).buffer.length = st.buffer.length + 1 := by
  obtain ⟨hsl, hrl, hsort, hsent, hcorr⟩ := hinv
  have hsl' : st.top_scores.length = 30 := by simpa [ITEMS_TO_SHOW] using hsl
  have hlt' : st.buffer.length < 30 := by simpa [ITEMS_TO_SHOW] using hlt
  cases hfind : find_best_score_idx st.top_scores (itemScore it) with
  | none =>
    have hchar := find_best_score_idx_eq_none.mp hfind
    have : fillStep st it = insert_both st 0 it := by
      simp [fillStep, insertionIdx, hfind]
    rw [this]
    exact selInv_insert_both ⟨hsl, hrl, hsort, hsent, hcorr⟩
      (Nat.zero_le _) (Nat.zero_le _)
      (fun i h1 _ => absurd h1 (Nat.not_lt_zero i))
      (fun i _ h2 => hchar i (by simp only [ITEMS_TO_SHOW] at h2; omega))
  | some j =>
    obtain ⟨hj30, hjgt, hjle⟩ := find_best_score_idx_eq_some.mp hfind
    rw [hsl'] at hj30 hjle
    have hjn : j < st.buffer.length := by
      by_contra hc
      have : st.top_scores.getD j 0 = i64Min := by
        refine hsent j ?_ ?_
        · simp only [ITEMS_TO_SHOW]; omega
        · simp only [ITEMS_TO_SHOW]; omega
      rw [this] at hjgt
      exact absurd hsc (not_le.mpr hjgt)
    have : fillStep st it = insert_both st (j + 1) it := by
      simp [fillStep, insertionIdx, hfind]
    rw [this]
    refine selInv_insert_both ⟨hsl, hrl, hsort, hsent, hcorr⟩ ?_ ?_ ?_ ?_
    · simp only [ITEMS_TO_SHOW]; omega
    · simp only [ITEMS_TO_SHOW, MAX_IDX]; omega
    · intro i h1 _
      have hji : st.top_scores.getD j 0 ≤ st.top_scores.getD i 0 :=
        hsort j (by omega) i (by omega)
      omega
    · intro i h1 h2
      simp only [ITEMS_TO_SHOW] at h2
      exact hjle i (by omega) (by omega)

theorem selInv_steadyStep {st : SelState} {it : Item}
    (hinv : SelInv st) (hge : ITEMS_TO_SHOW ≤ st.buffer.length) :
    SelInv (steadyStep st it) ∧
      (steadyStep st it).buffer.length = st.buffer.length + 1 := by
  obtain ⟨hsl, hrl, hsort, hsent, hcorr⟩ := hinv
  have hsl' : st.top_scores.length = 30 := by simpa [ITEMS_TO_SHOW] using hsl
  have hge' : 30 ≤ st.buffer.length := by simpa [ITEMS_TO_SHOW] using hge
  cases hfind : find_best_score_idx st.top_scores (itemScore it) with
  | none =>
    have hchar := find_best_score_idx_eq_none.mp hfind
    have : steadyStep st it = insert_both st 0 it := by
      simp [steadyStep, hfind]
    rw [this]
    exact selInv_insert_both ⟨hsl, hrl, hsort, hsent, hcorr⟩
      (Nat.zero_le _) (Nat.zero_le _)
      (fun i h1 _ => absurd h1 (Nat.not_lt_zero i))
      (fun i _ h2 => hchar i (by simp only [ITEMS_TO_SHOW] at h2; omega))
  | some j =>
    obtain ⟨hj30, hjgt, hjle⟩ := find_best_score_idx_eq_some.mp hfind
    rw [hsl'] at hj30 hjle
    by_cases hmax : j = MAX_IDX
    · have : steadyStep st it = { st with buffer := st.buffer ++ [it] } := by
        simp [steadyStep, hfind, hmax]
      rw [this]
      refine ⟨⟨hsl, hrl, hsort, ?_, ?_⟩, by simp⟩
      · intro i h1 h2
        simp only [ITEMS_TO_SHOW, List.length_append, List.length_singleton] at h1 h2
        omega
      · intro i h1
        simp only [ITEMS_TO_SHOW, List.length_append, List.length_singleton] at h1 ⊢
        obtain ⟨hb, hc⟩ := hcorr i (by simp only [ITEMS_TO_SHOW]; omega)
        exact ⟨by omega, by rw [List.getD_append _ _ _ _ (by omega), hc]⟩
    · have : steadyStep st it = insert_both st (j + 1) it := by
        simp [steadyStep, hfind, hmax]
      rw [this]
      simp only [MAX_IDX, ITEMS_TO_SHOW] at hmax
      refine selInv_insert_both ⟨hsl, hrl, hsort, hsent, hcorr⟩ ?_ ?_ ?_ ?_
      · simp only [ITEMS_TO_SHOW]; omega
      · simp only [ITEMS_TO_SHOW, MAX_IDX]; omega
      · intro i h1 _
        have hji : st.top_scores.getD j 0 ≤ st.top_scores.getD i 0 :=
          hsort j (by omega) i (by omega)
        omega
      · intro i h1 h2
        simp only [ITEMS_TO_SHOW] at h2
        exact hjle i (by omega) (by omega)

theorem selInv_fillPhase (items : List Item) :
    ∀ st : SelState, SelInv st →
      (∀ it ∈ items, i64Min ≤ itemScore it) →
      st.buffer.length + items.length ≤ ITEMS_TO_SHOW →
      SelInv (items.foldl fillStep st) ∧
        (items.foldl fillStep st).buffer.length =
          st.buffer.length + items.length := by
  induction items with
  | nil => intro st hinv _ _; simpa using hinv
  | cons it rest ih =>
    intro st hinv hall hlen
    simp only [List.length_cons] at hlen
    obtain ⟨hinv', hlen'⟩ := selInv_fillStep hinv
      (by simp only [ITEMS_TO_SHOW] at *; omega) (hall it (by simp))
    simp only [List.foldl_cons, List.length_cons]
    obtain ⟨h1, h2⟩ := ih (fillStep st it) hinv'
      (fun x hx => hall x (by simp [hx])) (by omega)
    exact ⟨h1, by omega⟩

theorem selInv_steadyPhase (items : List Item) :
    ∀ st : SelState, SelInv st → ITEMS_TO_SHOW ≤ st.buffer.length →
      SelInv (items.foldl steadyStep st) ∧
        ITEMS_TO_SHOW ≤ (items.foldl steadyStep st).buffer.length := by
  induction items with
  | nil => intro st hinv hge; simpa using ⟨hinv, hge⟩
  | cons it rest ih =>
    intro st hinv hge
    obtain ⟨hinv', hlen'⟩ := selInv_steadyStep hinv hge
    simp only [List.foldl_cons]
    exact ih (steadyStep st it) hinv' (by omega)

/-! ## Claim theorems -/

/-- C2: for every stream of scored candidates fed through the Selector
(fill mode then steady-state mode, as in `dyn_collect_all`), after each
insertion the `top_scores` array has length `ITEMS_TO_SHOW = 30` (hence at
most 30 filled slots), is sorted descending with `i64::MIN` sentinels in
every slot past the filled count, and every filled slot's `top_results`
entry indexes a buffer element whose score equals the slot's `top_scores`
entry. Quantifying over all input lists covers every prefix of a stream,
i.e. the state after each insertion. -/
theorem selector_invariant (items : List Item)
    (h : ∀ it ∈ items, i64Min ≤ itemScore it) :
    SelInv (dyn_collect_all items) := by
  unfold dyn_collect_all
  have hfill := selInv_fillPhase (items.take ITEMS_TO_SHOW) initSel selInv_init
    (fun it hit => h it (List.take_subset _ _ hit))
    (by
      simp only [initSel, List.length_nil, List.length_take, Nat.zero_add]
      exact min_le_left _ _)
  by_cases hle : items.length ≤ ITEMS_TO_SHOW
  · rw [List.drop_eq_nil_of_le hle]
    simpa using hfill.1
  · have hlen30 :
        ((items.take ITEMS_TO_SHOW).foldl fillStep initSel).buffer.length =
          ITEMS_TO_SHOW := by
      rw [hfill.2]
      simp only [initSel, List.length_nil, List.length_take, Nat.zero_add]
      omega
    exact (selInv_steadyPhase _ _ hfill.1 (by omega)).1

/-- Witness for `selector_invariant`: the hypothesis holds and the
invariant follows at a concrete two-item stream. -/
theorem selector_invariant_witness :
    (∀ it ∈ tieItems, i64Min ≤ itemScore it) ∧
      SelInv (dyn_collect_all tieItems) :=
  ⟨by decide, selector_invariant tieItems (by decide)⟩

/-- C4: under the selector invariant (array of length 30, sorted
descending), `find_best_score_idx` returns `none` iff the new score is at
least the best (slot 0) score — in particular whenever the array is all
`i64::MIN` sentinels — and returns `some j` iff `j` is the first slot,
scanning from the worst (last) slot backward, whose score is strictly
greater than the new score. -/
theorem find_best_score_idx_spec (l : List Int) (s : Int)
    (hlen : l.length = ITEMS_TO_SHOW) (hsort : sortedDesc l)
    (hmin : i64Min ≤ s) :
    (find_best_score_idx l s = none ↔ l.getD 0 0 ≤ s) ∧
    (∀ j, find_best_score_idx l s = some j ↔
      (j < ITEMS_TO_SHOW ∧ s < l.getD j 0 ∧
        ∀ k, j < k → k < ITEMS_TO_SHOW → l.getD k 0 ≤ s)) ∧
    ((∀ i, i < ITEMS_TO_SHOW → l.getD i 0 = i64Min) →
      find_best_score_idx l s = none) := by
  have h30 : l.length = 30 := by simpa [ITEMS_TO_SHOW] using hlen
  have hnone : find_best_score_idx l s = none ↔ l.getD 0 0 ≤ s := by
    rw [find_best_score_idx_eq_none]
    constructor
    · intro H
      exact H 0 (by omega)
    · intro H m hm
      exact le_trans (hsort m hm 0 (Nat.zero_le m)) H
  refine ⟨hnone, ?_, ?_⟩
  · intro j
    rw [find_best_score_idx_eq_some, h30]
    simp only [ITEMS_TO_SHOW]
  · intro hall
    rw [hnone]
    have := hall 0 (by simp only [ITEMS_TO_SHOW]; omega)
    rw [this]
    exact hmin

/-- A concrete sorted score array: two filled slots and 28 sentinels. -/
def demoScores : List Int := 5 :: 3 :: List.replicate 28 i64Min

/-- Witness for `find_best_score_idx_spec` at a concrete sorted array. -/
theorem find_best_score_idx_spec_witness :
    find_best_score_idx demoScores 4 = none ↔ demoScores.getD 0 0 ≤ 4 :=
  (find_best_score_idx_spec demoScores 4 (by decide) (by decide) (by decide)).1

/-- C3 counterexample: feeding two items with equal score 3 through the
selector, the later arrival `"b"` (buffer index 1) ends up in slot 0 —
ranked strictly better than the pre-existing equal-score entry `"a"` —
refuting the claim that a tied newcomer is placed after every pre-existing
entry with that score. -/
theorem tie_newcomer_ranked_first :
    (dyn_collect_all tieItems).buffer = tieItems ∧
    (dyn_collect_all tieItems).top_results.getD 0 0 = 1 ∧
    (dyn_collect_all tieItems).top_results.getD 1 0 = 0 ∧
    (dyn_collect_all tieItems).top_scores.getD 0 0 = 3 ∧
    (dyn_collect_all tieItems).top_scores.getD 1 0 = 3 := by decide

/-- C3 (amended): because `find_best_score_idx` uses a strict comparison
while scanning from the worst slot, a new item whose score equals an
existing entry is inserted at a slot at or before every pre-existing entry
with that score — ranked better, reversing arrival order among ties. -/
theorem tie_insertion_slot (l : List Int) (s : Int)
    (hlen : l.length = ITEMS_TO_SHOW) (hsort : sortedDesc l) :
    ∀ i, i < ITEMS_TO_SHOW → l.getD i 0 = s → insertionIdx l s ≤ i := by
  intro i hi he
  have h30 : l.length = 30 := by simpa [ITEMS_TO_SHOW] using hlen
  simp only [ITEMS_TO_SHOW] at hi
  cases hfind : find_best_score_idx l s with
  | none => simp [insertionIdx, hfind]
  | some j =>
    obtain ⟨hj, hjgt, _⟩ := find_best_score_idx_eq_some.mp hfind
    have hidx : insertionIdx l s = j + 1 := by simp [insertionIdx, hfind]
    rw [hidx]
    by_contra hc
    have hij : i ≤ j := by omega
    have := hsort j hj i hij
    rw [he] at this
    exact absurd hjgt (not_lt.mpr this)

/-- Witness for `tie_insertion_slot` at a concrete sorted array. -/
theorem tie_insertion_slot_witness : insertionIdx demoScores 3 ≤ 1 :=
  tie_insertion_slot demoScores 3 (by decide) (by decide) 1 (by decide)
    (by decide)

/-- C1: evaluation at the failing input. With `number = 1` and candidates
scored `1` then `2`, `dyn_collect_number` returns the buffer in arrival
order (its documentation says "The vector is not sorted nor truncated"),
so the caller's `take(number)` yields the score-1 item while the true
top 1 — one full descending sort — is the score-2 item. -/
theorem collect_number_take_misses_true_top :
    dynFuzzyTopResults 1 bugItems = [("a", 1, [])] ∧
    trueTopResults 1 bugItems = [("b", 2, [])] ∧
    dynFuzzyTopResults 1 bugItems ≠ trueTopResults 1 bugItems := by decide

/-! ### Buffer-length bookkeeping for `dyn_collect_number` -/

theorem fillStep_buffer_length (st : SelState) (it : Item) :
    (fillStep st it).buffer.length = st.buffer.length + 1 := by
  simp [fillStep, insert_both]

theorem steadyStep_buffer_length (st : SelState) (it : Item) :
    (steadyStep st it).buffer.length = st.buffer.length + 1 := by
  cases h : find_best_score_idx st.top_scores (itemScore it) with
  | none => simp [steadyStep, h, insert_both]
  | some j =>
    by_cases hm : j = MAX_IDX
    · simp [steadyStep, h, hm, insert_both]
    · simp [steadyStep, h, hm, insert_both]

theorem fillPhase_buffer_length (items : List Item) :
    ∀ st : SelState,
      (items.foldl fillStep st).buffer.length =
        st.buffer.length + items.length := by
  induction items with
  | nil => simp
  | cons it rest ih =>
    intro st
    simp only [List.foldl_cons, List.length_cons]
    rw [ih, fillStep_buffer_length]
    omega

theorem sortDescByScore_length (l : List Item) :
    (sortDescByScore l).length = l.length :=
  List.length_insertionSort scoreGE l

theorem compactResync_buffer_length (st : SelState) :
    (compactResync st).buffer.length =
      min (st.buffer.length / 2) st.buffer.length := by
  simp [compactResync, List.length_take, sortDescByScore_length]

theorem collectNumber_cap_fold (cap : Nat) (hcap : 0 < cap)
    (items : List Item) :
    ∀ st : SelState, st.buffer.length < cap →
      (items.foldl (collectNumberStep cap) st).buffer.length < cap := by
  induction items with
  | nil => intro st h; simpa using h
  | cons it rest ih =>
    intro st h
    simp only [List.foldl_cons]
    apply ih
    unfold collectNumberStep
    by_cases hc : (steadyStep st it).buffer.length = cap
    · rw [if_pos hc, compactResync_buffer_length, hc]
      omega
    · rw [if_neg hc]
      have := steadyStep_buffer_length st it
      omega

/-- C5: during every run of `dyn_collect_number` the buffer stays strictly
below the capacity `2 * max(ITEMS_TO_SHOW, number)` after each full
iteration (so it never holds more than that capacity — the capacity is
reached only momentarily inside an iteration, which is exactly when
compaction fires); and whenever the push inside an iteration reaches the
capacity, the state is compacted: there is a descending-by-score
permutation `sorted` of the full buffer such that the new buffer is its
first half, `top_scores[i]` is the `i`-th sorted score and
`top_results[i] = i` for every `i < ITEMS_TO_SHOW`. -/
theorem collect_number_capacity (number : Nat) (items : List Item) :
    (dyn_collect_number number items).buffer.length < collectCapacity number ∧
    (∀ st it,
      (steadyStep st it).buffer.length = collectCapacity number →
      ∃ sorted : List Item,
        sorted.Perm (steadyStep st it).buffer ∧
        List.Sorted scoreGE sorted ∧
        (collectNumberStep (collectCapacity number) st it).buffer =
          sorted.take (collectCapacity number / 2) ∧
        (∀ i, i < ITEMS_TO_SHOW →
          (collectNumberStep (collectCapacity number) st it).top_scores.getD
              i 0 = itemScore (sorted.getD i dfltItem) ∧
          (collectNumberStep (collectCapacity number) st it).top_results.getD
              i 0 = i)) := by
  have hcap60 : 60 ≤ collectCapacity number := by
    simp only [collectCapacity, ITEMS_TO_SHOW]
    omega
  constructor
  · unfold dyn_collect_number
    apply collectNumber_cap_fold _ (by omega)
    rw [fillPhase_buffer_length]
    simp only [initSel, List.length_nil, List.length_take, Nat.zero_add]
    simp only [ITEMS_TO_SHOW]
    omega
  · intro st it hlen
    refine ⟨sortDescByScore (steadyStep st it).buffer,
      List.perm_insertionSort scoreGE _,
      List.sorted_insertionSort scoreGE _, ?_, ?_⟩
    · simp only [collectNumberStep, if_pos hlen, compactResync]
      rw [sortDescByScore_length, hlen]
    · intro i hi
      simp only [ITEMS_TO_SHOW] at hi
      simp only [collectNumberStep, if_pos hlen, compactResync]
      constructor
      · have hlt : i < ((List.range ITEMS_TO_SHOW).map
            (fun k => itemScore
              ((sortDescByScore (steadyStep st it).buffer).getD
                k dfltItem))).length := by
          simp [ITEMS_TO_SHOW]
          omega
        rw [List.getD_eq_getElem _ _ hlt, List.getElem_map,
          List.getElem_range]
      · have hlt : i < (List.range ITEMS_TO_SHOW).length := by
          simp [ITEMS_TO_SHOW]
          omega
        rw [List.getD_eq_getElem _ _ hlt, List.getElem_range]

/-- Witness for `collect_number_capacity`: the compaction description is
realized at a concrete state one push away from capacity. -/
theorem collect_number_capacity_witness :
    ∃ sorted : List Item,
      sorted.Perm (steadyStep nearCapSt dfltItem).buffer ∧
      List.Sorted scoreGE sorted ∧
      (collectNumberStep (collectCapacity 0) nearCapSt dfltItem).buffer =
        sorted.take (collectCapacity 0 / 2) ∧
      (∀ i, i < ITEMS_TO_SHOW →
        (collectNumberStep (collectCapacity 0) nearCapSt
            dfltItem).top_scores.getD i 0 =
          itemScore (sorted.getD i dfltItem) ∧
        (collectNumberStep (collectCapacity 0) nearCapSt
            dfltItem).top_results.getD i 0 = i) :=
  (collect_number_capacity 0 []).2 nearCapSt dfltItem (by decide)

/-! ### Progress-emitter lemmas -/

theorem notifyStep_emit {st : NotifyState} {now : Nat}
    (h1 : (st.total + 1) % 16 = 0) (h2 : st.past + UPDATE_INTERVAL < now) :
    notifyStep st now =
      { total := st.total + 1, past := now, emits := st.emits ++ [now] } := by
  simp [notifyStep, tryNotifyModel, h1, h2]

theorem notifyStep_skip {st : NotifyState} {now : Nat}
    (h : ¬((st.total + 1) % 16 = 0 ∧ st.past + UPDATE_INTERVAL < now)) :
    notifyStep st now =
      { total := st.total + 1, past := st.past, emits := st.emits } := by
  by_cases h1 : (st.total + 1) % 16 = 0
  · have h2 : ¬ st.past + UPDATE_INTERVAL < now := fun hc => h ⟨h1, hc⟩
    simp [notifyStep, tryNotifyModel, h1, h2]
  · simp [notifyStep, tryNotifyModel, h1]

theorem runNotify_fold_inv (clocks : List Nat) :
    ∀ st : NotifyState,
      (∀ e ∈ st.emits, e ≤ st.past) →
      st.emits.Pairwise (fun a b => a + UPDATE_INTERVAL < b) →
      (∀ e ∈ (clocks.foldl notifyStep st).emits,
          e ≤ (clocks.foldl notifyStep st).past) ∧
        (clocks.foldl notifyStep st).emits.Pairwise
          (fun a b => a + UPDATE_INTERVAL < b) := by
  induction clocks with
  | nil => intro st h1 h2; simpa using ⟨h1, h2⟩
  | cons now rest ih =>
    intro st h1 h2
    simp only [List.foldl_cons]
    by_cases hcond : (st.total + 1) % 16 = 0 ∧ st.past + UPDATE_INTERVAL < now
    · rw [notifyStep_emit hcond.1 hcond.2]
      apply ih
      · intro e he
        simp only [List.mem_append, List.mem_singleton] at he
        show e ≤ now
        rcases he with he | rfl
        · have h3 := h1 e he
          have h4 := hcond.2
          omega
        · exact le_rfl
      · rw [List.pairwise_append]
        refine ⟨h2, List.pairwise_singleton _ _, ?_⟩
        intro a ha b hb
        simp only [List.mem_singleton] at hb
        subst hb
        have := h1 a ha
        have := hcond.2
        omega
    · rw [notifyStep_skip hcond]
      exact ih _ h1 h2

/-- C6: a snapshot is emitted only when the incremented running total is a
multiple of 16 and strictly more than `UPDATE_INTERVAL = 300` ms have
elapsed since the stored `past` instant; the `past` timestamp changes only
when an emission occurs; and consequently, in every run, any two recorded
emission instants are more than 300 ms apart. -/
theorem notify_throttle :
    (∀ (st : NotifyState) (now : Nat),
      ((st.total + 1) % 16 = 0 ∧ st.past + UPDATE_INTERVAL < now →
        notifyStep st now =
          { total := st.total + 1, past := now, emits := st.emits ++ [now] }) ∧
      (¬((st.total + 1) % 16 = 0 ∧ st.past + UPDATE_INTERVAL < now) →
        notifyStep st now =
          { total := st.total + 1, past := st.past, emits := st.emits })) ∧
    (∀ total0 past0 clocks,
      (runNotify total0 past0 clocks).emits.Pairwise
        (fun a b => a + UPDATE_INTERVAL < b)) := by
  constructor
  · exact fun st now =>
      ⟨fun h => notifyStep_emit h.1 h.2, fun h => notifyStep_skip h⟩
  · intro total0 past0 clocks
    exact (runNotify_fold_inv clocks _ (by simp) (by simp)).2

/-- Witness for `notify_throttle`: a sampled, overdue point emits and
refreshes the timestamp. -/
theorem notify_throttle_witness :
    notifyStep { total := 31, past := 0, emits := [] } 400 =
      { total := 32, past := 400, emits := [400] } :=
  (notify_throttle.1 { total := 31, past := 0, emits := [] } 400).1
    ⟨by decide, by decide⟩

/-! ### light_command claim theorems -/

/-- C7: if the wrapped command exits non-zero with non-empty stderr, the
engine reports the stderr text as the error and the whole invocation
terminates with exit code 1 (`std::process::exit(1)`, modeled as the
`fatal` outcome — no partial success); otherwise execution continues
normally and produces a response built from the captured stdout. -/
theorem execute_fail_fast (cfg : LightCmd) (iconFn grepIconFn : String → String)
    (o : CmdOutput) (args : List String) (ts : Nat) :
    (o.exitCode ≠ 0 ∧ o.stderr ≠ "" →
      executeModel cfg iconFn grepIconFn o args ts = .fatal 1 o.stderr) ∧
    (o.exitCode = 0 ∨ o.stderr = "" →
      ∃ lines tempfile,
        executeModel cfg iconFn grepIconFn o args ts =
          .response (countNewlines o.stdout) lines tempfile) := by
  constructor
  · intro h
    simp [executeModel, h]
  · intro h
    have hno : ¬(o.exitCode ≠ 0 ∧ o.stderr ≠ "") := by tauto
    simp only [executeModel, if_neg hno]
    cases cfg.number with
    | some n => exact ⟨_, _, rfl⟩
    | none => exact ⟨_, _, rfl⟩

/-- Witness for `execute_fail_fast`: a failing command is reported fatally
with its stderr text. -/
theorem execute_fail_fast_witness :
    executeModel cfgDemo id id
        { exitCode := 2, stdout := "", stderr := "boom" } [] 0 =
      .fatal 1 "boom" :=
  (execute_fail_fast cfgDemo id id
    { exitCode := 2, stdout := "", stderr := "boom" } [] 0).1
    ⟨by decide, by decide⟩

/-- C8: with no `number` limit requested (and the fail-fast gate passed),
the response carries a tempfile path iff the newline count of the captured
stdout strictly exceeds the configured output threshold; below the
threshold the full output is returned inline with no tempfile. -/
theorem execute_tempfile_iff (cfg : LightCmd)
    (iconFn grepIconFn : String → String) (o : CmdOutput)
    (args : List String) (ts : Nat)
    (hnum : cfg.number = none) (hok : o.exitCode = 0 ∨ o.stderr = "") :
    ∃ lines tempfile,
      executeModel cfg iconFn grepIconFn o args ts =
        .response (countNewlines o.stdout) lines tempfile ∧
      (tempfile.isSome ↔ cfg.output_threshold < countNewlines o.stdout) := by
  have hno : ¬(o.exitCode ≠ 0 ∧ o.stderr ≠ "") := by tauto
  simp only [executeModel, if_neg hno, hnum]
  by_cases ht : countNewlines o.stdout > cfg.output_threshold
  · refine ⟨tryPrependIcon cfg iconFn grepIconFn (splitChar '\n' o.stdout),
      some (tempfilePath cfg args ts (countNewlines o.stdout)), ?_, ?_⟩
    · simp [ht]
    · simp [ht]
  · refine ⟨tryPrependIcon cfg iconFn grepIconFn (splitChar '\n' o.stdout),
      none, ?_, ?_⟩
    · simp [ht]
    · simp [ht]

/-- Witness for `execute_tempfile_iff`: two stdout lines under a
threshold of five produce an inline response without a tempfile. -/
theorem execute_tempfile_iff_witness :
    ∃ lines tempfile,
      executeModel cfgDemo id id outDemo [] 0 =
        .response (countNewlines outDemo.stdout) lines tempfile ∧
      (tempfile.isSome ↔ cfgDemo.output_threshold < countNewlines outDemo.stdout) :=
  execute_tempfile_iff cfgDemo id id outDemo [] 0 (by decide) (by decide)

/-- C9 counterexample: the cache entry `"123_abc"` does not have the
well-formed `{timestamp}_{count}` shape, yet the lookup does not fall
through to execution — `parse::<u64>().unwrap()` on `"abc"` panics and
aborts the invocation. -/
theorem malformed_cache_count_aborts :
    cacheEntryLookup "123_abc" = CacheLookup.aborted ∧
    cacheEntryLookup "123_abc" ≠ CacheLookup.miss ∧
    tryCacheOrExecuteModel cfgDemo id id (some "123_abc") outDemo [] 0 =
      ExecResult.panicAbort ∧
    tryCacheOrExecuteModel cfgDemo id id (some "123_abc") outDemo [] 0 ≠
      executeModel cfgDemo id id outDemo [] 0 := by decide

/-- C9 (amended): only the arity of the `'_'`-split is validated. A
filename that does not split into exactly two parts is treated as a cache
miss and falls through to re-execution; a two-part filename whose second
part parses as `u64` is a hit (the timestamp part is never checked); and a
two-part filename whose second part fails to parse panics instead of
falling through. -/
theorem cache_lookup_fallthrough (filename : String) (cfg : LightCmd)
    (iconFn grepIconFn : String → String) (o : CmdOutput)
    (args : List String) (ts : Nat) :
    ((splitChar '_' filename).length ≠ 2 →
      cacheEntryLookup filename = CacheLookup.miss ∧
      tryCacheOrExecuteModel cfg iconFn grepIconFn (some filename) o args ts =
        executeModel cfg iconFn grepIconFn o args ts) ∧
    (∀ t, (splitChar '_' filename).length = 2 →
      parseU64 ((splitChar '_' filename).getD 1 "") = some t →
      cacheEntryLookup filename = CacheLookup.hit t) ∧
    ((splitChar '_' filename).length = 2 →
      parseU64 ((splitChar '_' filename).getD 1 "") = none →
      cacheEntryLookup filename = CacheLookup.aborted) := by
  refine ⟨?_, ?_, ?_⟩
  · intro h
    have hmiss : cacheEntryLookup filename = CacheLookup.miss := by
      simp [cacheEntryLookup, h]
    exact ⟨hmiss, by simp [tryCacheOrExecuteModel, hmiss]⟩
  · intro t h hp
    simp only [cacheEntryLookup, h, hp, if_true]
  · intro h hp
    simp only [cacheEntryLookup, h, hp, if_true]

/-- Witness for `cache_lookup_fallthrough`: a filename with no underscore
is a miss and falls through to execution. -/
theorem cache_lookup_fallthrough_witness :
    cacheEntryLookup "abc" = CacheLookup.miss ∧
    tryCacheOrExecuteModel cfgDemo id id (some "abc") outDemo [] 0 =
      executeModel cfgDemo id id outDemo [] 0 :=
  (cache_lookup_fallthrough "abc" cfgDemo id id outDemo [] 0).1 (by decide)

/-- C10 counterexample: the final line `"abcd"` carries real non-blank
content, yet `trim_trailing` drops it, because the trim test matches any
final line of byte length 4, not just blank or icon-blank lines. -/
theorem trim_trailing_drops_content_line :
    trim_trailing ["real", "abcd"] = ["real"] ∧
    "abcd" ≠ "" ∧
    trim_trailing ["real", "abcd"] ≠ ["real", "abcd"] := by decide

/-- C10 (amended): `trim_trailing` removes the final line iff it is the
empty string or its UTF-8 byte length is exactly 4 (the byte length of an
icon-prefixed blank, but equally of any 4-byte content line such as
`"abcd"`); a final line that is non-empty and not of byte length 4 is
never dropped. -/
theorem trim_trailing_spec (lines : List String) (last_line : String)
    (h : lines.getLast? = some last_line) :
    (last_line = "" ∨ last_line.utf8ByteSize = 4 →
      trim_trailing lines = lines.dropLast) ∧
    (last_line ≠ "" → last_line.utf8ByteSize ≠ 4 →
      trim_trailing lines = lines) := by
  constructor
  · intro hc
    simp [trim_trailing, h, hc]
  · intro h1 h2
    simp [trim_trailing, h, h1, h2]

/-- Witness for `trim_trailing_spec`: a non-empty final line whose byte
length differs from 4 is kept. -/
theorem trim_trailing_spec_witness :
    trim_trailing ["real", "ok"] = ["real", "ok"] :=
  (trim_trailing_spec ["real", "ok"] "ok" (by decide)).2 (by decide) (by decide)

end VimClap
